import Mathlib

/-!
Verification development for the Babbar MCP orchestration layer.

The definitions below are a shallow embedding of the pure computational
core of the TypeScript source (src/index.ts): the caching remote client,
the concurrency limiter, the competitor relevance scorer, the keyword
opportunity finder, the duplication bucket classifier, and the backlink
opportunity pipeline.  JavaScript numbers are modelled as exact rationals
where fractional arithmetic occurs and as naturals where the code only
handles integer positions and counts; absent or null fields are modelled
with Option; JavaScript truthiness of strings (empty string is falsy) and
of numbers (zero is falsy) is made explicit in the helper functions.
-/

/-- JavaScript short-circuit or for strings: the chain a or-else d where the
empty string counts as falsy, as in (kw.keyword, kw.query, default). -/
def jsOrS : Option String → String → String
  | some s, d => if s = "" then d else s
  | none, d => d

/-- JavaScript short-circuit or for numbers: zero counts as falsy, as in
Number(kw.position, kw.rank, default). -/
def jsOrN : Option Nat → Nat → Nat
  | some n, d => if n = 0 then d else n
  | none, d => d

/-- JavaScript nullish coalescing: only null and undefined select the
fallback; zero and the empty string pass through. -/
def jsNullish {α : Type} : Option α → Option α → Option α
  | some a, _ => some a
  | none, b => b

/-- JavaScript String.prototype.toLowerCase, restricted to the per-character
lowering that the keyword comparisons rely on; building the string from
its character list keeps the definition kernel-reducible. -/
def sLower (s : String) : String := String.mk (s.data.map Char.toLower)

/-- Insert or overwrite a key in an association list, keeping the position of
the first insertion, as JavaScript Map.prototype.set does. -/
def assocSet {β : Type} (m : List (String × β)) (k : String) (v : β) : List (String × β) :=
  if m.any (fun kv => kv.1 = k) then m.map (fun kv => if kv.1 = k then (k, v) else kv)
  else m ++ [(k, v)]

/-- Lookup in an association list, as JavaScript Map.prototype.get. -/
def assocGet {β : Type} (m : List (String × β)) (k : String) : Option β :=
  (m.find? (fun kv => kv.1 = k)).map (·.2)

/-- Keep the first occurrence of every element, as iterating a JavaScript
Set built from a list does. -/
def dedupFirst (l : List String) : List String :=
  l.foldl (fun acc a => if a ∈ acc then acc else acc ++ [a]) []

/-! ## Competitor relevance scorer (calculateCompetitorRelevance) -/

/-- Result record of the competitor relevance scorer. -/
structure RelevanceAssessment where
  commonCount : Nat
  commonRatio : ℚ
  relevanceScore : ℚ
  isRelevant : Bool
deriving DecidableEq, Repr

/-- Shallow embedding of calculateCompetitorRelevance: the base keyword set
is modelled as a list with membership testing. -/
def calculateCompetitorRelevance (baseKeywords : List String)
    (competitorKeywords : List String) (similarityScore : ℚ) : RelevanceAssessment :=
  let commonKeywords := competitorKeywords.filter (fun kw => baseKeywords.contains kw)
  let commonCount := commonKeywords.length
  let commonRatio : ℚ :=
    if 0 < competitorKeywords.length then (commonCount : ℚ) / (competitorKeywords.length : ℚ)
    else 0
  let relevanceScore := similarityScore * (6/10) + commonRatio * 100 * (4/10)
  { commonCount := commonCount
    commonRatio := commonRatio
    relevanceScore := relevanceScore
    isRelevant := decide (10 ≤ commonCount ∧ 50 < relevanceScore) }

/-- Twelve keywords shared with the base set, for the worked example of the
spec. -/
def kwBase12 : List String := (List.range 12).map (fun i => "k" ++ toString i)

/-- A competitor list of one hundred keywords of which exactly the first
twelve are in kwBase12. -/
def kwComp100 : List String := kwBase12 ++ (List.range 88).map (fun i => "x" ++ toString i)

/-! ## Duplication bucket classifier (babbar_host_duplicate) -/

/-- Rounding to two decimal places as Math.round(n * 100) / 100; Math.round
rounds half toward positive infinity, which is floor of x + 1/2. -/
def round2 (x : ℚ) : ℚ := ((⌊x * 100 + 1/2⌋ : ℤ) : ℚ) / 100

/-- Shallow embedding of normPct.  none models a value that fails the isNaN
test (null, undefined or non-numeric); the numeric path rescales a 0..1
fraction to 0..100, clamps into the range and rounds to two decimals. -/
def normPct (v : Option ℚ) : Option ℚ :=
  match v with
  | none => none
  | some x =>
    let n1 := if x ≤ 1 then x * 100 else x
    let n2 := if n1 < 0 then 0 else n1
    let n3 := if n2 > 100 then 100 else n2
    some (round2 n3)

/-- A normalized duplication bucket as built in babbar_host_duplicate. -/
structure Bucket where
  percent_from : ℚ
  percent_to : ℚ
  pairs : Nat
deriving DecidableEq, Repr

/-- Severity tiers of a duplication bucket. -/
inductive Severity where
  | blocker
  | critical
  | high
  | info
deriving DecidableEq, Repr

/-- Shallow embedding of crossesThreshold: percent_to at or above the
threshold. -/
def crossesThreshold (threshold : ℚ) (b : Bucket) : Bool :=
  decide (threshold ≤ b.percent_to)

/-- Shallow embedding of severityOf. -/
def severityOf (threshold : ℚ) (b : Bucket) : Severity :=
  if 95 ≤ b.percent_to then Severity.blocker
  else if 92 ≤ b.percent_to then Severity.critical
  else if threshold ≤ b.percent_to then Severity.high
  else Severity.info

/-! ## Keyword opportunity finder (findKeywordOpportunities) -/

/-- A raw keyword row as consumed by findKeywordOpportunities; fields that
may be absent in the heterogeneous API payload are Options. -/
structure KwRow where
  keyword : Option String
  query : Option String
  position : Option Nat
  rank : Option Nat
  volume : Option Nat
  searchVolume : Option Nat
deriving DecidableEq, Repr

/-- The normalized keyword of a row: (kw.keyword or kw.query or empty),
lower-cased. -/
def rowKeyword (r : KwRow) : String := sLower (jsOrS r.keyword (jsOrS r.query ""))

/-- The position of a row: Number(kw.position or kw.rank or 999). -/
def rowPosition (r : KwRow) : Nat := jsOrN r.position (jsOrN r.rank 999)

/-- The search volume of a row: Number(kw.volume or kw.searchVolume or 0). -/
def rowVolume (r : KwRow) : Nat := jsOrN r.volume (jsOrN r.searchVolume 0)

/-- The base keyword map: normalized keyword to position, later rows
overwriting earlier ones and empty keywords skipped. -/
def baseKwMap (baseKeywords : List KwRow) : List (String × Nat) :=
  baseKeywords.foldl
    (fun m kw =>
      let keyword := rowKeyword kw
      if keyword = "" then m else assocSet m keyword (rowPosition kw))
    []

/-- The analyzed site position for a keyword: map lookup with the falsy
fallback 999. -/
def ourPositionOf (m : List (String × Nat)) (keyword : String) : Nat :=
  jsOrN (assocGet m keyword) 999

/-- An emitted keyword opportunity record.  The ourPosition field is either
a number or the display string substituted for the 999 sentinel. -/
structure Opportunity where
  keyword : String
  competitorHost : String
  competitorPosition : Nat
  ourPosition : Nat ⊕ String
  volume : Nat
  gap : Int
  priority : String
deriving DecidableEq, Repr

/-- Build one opportunity record as the push inside findKeywordOpportunities
does, from the numeric ourPosition. -/
def mkOpportunity (competitorHost keyword : String)
    (competitorPosition ourPosition volume : Nat) : Opportunity :=
  { keyword := keyword
    competitorHost := competitorHost
    competitorPosition := competitorPosition
    ourPosition := if ourPosition = 999 then Sum.inr "Non classé" else Sum.inl ourPosition
    volume := volume
    gap := (ourPosition : Int) - (competitorPosition : Int)
    priority :=
      if competitorPosition ≤ 3 then "High"
      else if competitorPosition ≤ 5 then "Medium" else "Low" }

/-- The unsorted opportunity list: one record per competitor row with a
nonempty normalized keyword, competitor position at most 10 and our
position above 10. -/
def emitOpportunities (m : List (String × Nat)) (competitorHost : String)
    (competitorKeywords : List KwRow) : List Opportunity :=
  competitorKeywords.filterMap (fun kw =>
    let keyword := rowKeyword kw
    if keyword = "" then none
    else
      let competitorPosition := rowPosition kw
      let ourPosition := ourPositionOf m keyword
      if competitorPosition ≤ 10 ∧ 10 < ourPosition then
        some (mkOpportunity competitorHost keyword competitorPosition ourPosition (rowVolume kw))
      else none)

/-- The sort comparator of findKeywordOpportunities as a relation: ascending
competitor position, ties broken by descending volume. -/
def oppLE (a b : Opportunity) : Prop :=
  a.competitorPosition < b.competitorPosition ∨
    (a.competitorPosition = b.competitorPosition ∧ b.volume ≤ a.volume)

instance : DecidableRel oppLE := fun a b => by
  unfold oppLE; infer_instance

instance : IsTotal Opportunity oppLE := by
  constructor
  intro a b
  unfold oppLE
  omega

instance : IsTrans Opportunity oppLE := by
  constructor
  intro a b c hab hbc
  unfold oppLE at *
  omega

/-- Shallow embedding of findKeywordOpportunities: emit, then stable-sort
with the comparator. -/
def findKeywordOpportunities (baseKeywords competitorKeywords : List KwRow)
    (competitorHost : String) : List Opportunity :=
  List.insertionSort oppLE
    (emitOpportunities (baseKwMap baseKeywords) competitorHost competitorKeywords)

/-! ## Remote data client (makeApiCall) -/

/-- The formatted response envelope; the per-array count fields depend on
the shape of the opaque payload and are not modelled. -/
structure Envelope where
  endpoint : String
  timestamp : Nat
  rateLimitRemaining : Option Int
  data : String
deriving DecidableEq, Repr

/-- Outcome of the transport layer for one request: the payload and the
optional rate-limit header.  The 429 interceptor retry is internal to the
transport, so a single outcome abstracts the whole exchange. -/
structure NetResponse where
  payload : String
  rateRemaining : Option Int
deriving DecidableEq, Repr

/-- Client state: the NodeCache content (key, envelope, insertion time in
seconds) and the process-wide rate-limit counter. -/
structure ClientState where
  cache : List (String × Envelope × Nat)
  rateLimitRemaining : Option Int
deriving DecidableEq, Repr

/-- The cache key: method, endpoint and serialized parameters. -/
def cacheKey (method endpoint params : String) : String :=
  method ++ ":" ++ endpoint ++ ":" ++ params

/-- Raw entry lookup, ignoring expiry. -/
def cacheLookup (c : List (String × Envelope × Nat)) (k : String) : Option (Envelope × Nat) :=
  assocGet c k

/-- NodeCache get with stdTTL 864000 seconds: an entry is served while now
is at most the insertion time plus the TTL, and treated as absent after. -/
def cacheGet (c : List (String × Envelope × Nat)) (k : String) (now : Nat) : Option Envelope :=
  match cacheLookup c k with
  | some (env, t) => if now ≤ t + 864000 then some env else none
  | none => none

/-- formatResponse: wrap a payload into the envelope with metadata. -/
def formatResponse (rl : Option Int) (payload endpoint : String) (now : Nat) : Envelope :=
  { endpoint := endpoint, timestamp := now, rateLimitRemaining := rl, data := payload }

/-- Shallow embedding of makeApiCall.  Returns the result (some envelope on
success, none when an error is thrown), the new client state, and whether a
network request was issued. -/
def makeApiCall (st : ClientState) (endpoint method params : String) (useCache : Bool)
    (net : Option NetResponse) (now : Nat) : Option Envelope × ClientState × Bool :=
  let key := cacheKey method endpoint params
  match (if useCache = true ∧ method = "POST" then cacheGet st.cache key now else none) with
  | some cached => (some cached, st, false)
  | none =>
    match net with
    | some resp =>
      let rl := jsNullish resp.rateRemaining st.rateLimitRemaining
      let env := formatResponse rl resp.payload endpoint now
      let cache' :=
        if useCache = true ∧ method = "POST" then assocSet st.cache key (env, now) else st.cache
      (some env, { cache := cache', rateLimitRemaining := rl }, true)
    | none => (none, st, true)

/-! ## Backlink opportunity pipeline (babbar_backlink_opportunities_spotfinder) -/

/-- A pooled source page collected from a SpotFinder host (stage 4), with
the metrics attached by the pipeline. -/
structure SourcePage where
  url : String
  host : String
  semanticValue : ℚ
  pageValue : ℚ
  babbarAuthorityScore : ℚ
  spotfinderScore : ℚ
deriving DecidableEq, Repr

/-- Deduplicate the source pool by URL (JavaScript Map keeps first insertion
order, last value) and drop sources with a falsy url or host or whose host
is in the exclusion set of hosts already referring to the analyzed host. -/
def uniqueSources (sources : List SourcePage) (ourRefHosts : List String) : List SourcePage :=
  ((sources.foldl (fun m p => assocSet m p.url p) []).map (·.2)).filter
    (fun p => decide (p.url ≠ "" ∧ p.host ≠ "" ∧ p.host ∉ ourRefHosts))

/-- Preselection comparator of stage 5: descending semantic value, then
descending page value, then descending SpotFinder score. -/
def srcLE (a b : SourcePage) : Prop :=
  b.semanticValue < a.semanticValue ∨
    (a.semanticValue = b.semanticValue ∧
      (b.pageValue < a.pageValue ∨
        (a.pageValue = b.pageValue ∧ b.spotfinderScore ≤ a.spotfinderScore)))

instance : DecidableRel srcLE := fun a b => by
  unfold srcLE; infer_instance

instance : IsTotal SourcePage srcLE := by
  constructor
  intro a b
  unfold srcLE
  rcases lt_trichotomy a.semanticValue b.semanticValue with h | h | h
  · exact Or.inr (Or.inl h)
  · rcases lt_trichotomy a.pageValue b.pageValue with h2 | h2 | h2
    · exact Or.inr (Or.inr ⟨h.symm, Or.inl h2⟩)
    · rcases le_total b.spotfinderScore a.spotfinderScore with h3 | h3
      · exact Or.inl (Or.inr ⟨h, Or.inr ⟨h2, h3⟩⟩)
      · exact Or.inr (Or.inr ⟨h.symm, Or.inr ⟨h2.symm, h3⟩⟩)
    · exact Or.inl (Or.inr ⟨h, Or.inl h2⟩)
  · exact Or.inl (Or.inl h)

instance : IsTrans SourcePage srcLE := by
  constructor
  intro a b c hab hbc
  unfold srcLE at *
  rcases hab with h | ⟨he, h⟩ <;> rcases hbc with h2 | ⟨he2, h2⟩
  · exact Or.inl (lt_trans h2 h)
  · exact Or.inl (he2 ▸ h)
  · exact Or.inl (he ▸ h2)
  · refine Or.inr ⟨he.trans he2, ?_⟩
    rcases h with h | ⟨hp, h⟩ <;> rcases h2 with h2 | ⟨hp2, h2⟩
    · exact Or.inl (lt_trans h2 h)
    · exact Or.inl (hp2 ▸ h)
    · exact Or.inl (hp ▸ h2)
    · exact Or.inr ⟨hp.trans hp2, le_trans h2 h⟩

/-- An opportunity of the backlink pipeline, with the prospect metrics that
the final sort reads flattened into fields. -/
structure BacklinkOpportunity where
  prospectUrl : String
  prospectHost : String
  targetUrl : String
  inducedStrength : ℚ
  fromHost : String
  spotfinderScore : ℚ
  semanticValue : ℚ
  pageValue : ℚ
  babbarAuthorityScore : ℚ
deriving DecidableEq, Repr

/-- One retained (source, target) pair of stage 5. -/
def mkBacklinkOpp (p : SourcePage) (targetUrl : String) (fi : ℚ) : BacklinkOpportunity :=
  { prospectUrl := p.url
    prospectHost := p.host
    targetUrl := targetUrl
    inducedStrength := fi
    fromHost := p.host
    spotfinderScore := p.spotfinderScore
    semanticValue := p.semanticValue
    pageValue := p.pageValue
    babbarAuthorityScore := p.babbarAuthorityScore }

/-- Stage 5: per target, preselect the best maxCandidatesPerTarget sources
and keep the pairs whose induced strength reaches the threshold.  The
induced-strength service is an oracle; a failed call yields strength 0 at
the oracle and is discarded by the threshold test (fiThreshold is 10 by
default and a successful pair must reach it). -/
def collectOps (us : List SourcePage) (targets : List String) (fi : String → String → ℚ)
    (fiThreshold : ℚ) (maxCandidatesPerTarget : Nat) : List BacklinkOpportunity :=
  (targets.map (fun targetUrl =>
    ((List.insertionSort srcLE us).take maxCandidatesPerTarget).filterMap (fun p =>
      if fiThreshold ≤ fi p.url targetUrl then some (mkBacklinkOpp p targetUrl (fi p.url targetUrl))
      else none))).flatten

/-- Final ranking comparator: descending induced strength, then descending
SpotFinder score, then descending prospect semantic value. -/
def fiOppLE (a b : BacklinkOpportunity) : Prop :=
  b.inducedStrength < a.inducedStrength ∨
    (a.inducedStrength = b.inducedStrength ∧
      (b.spotfinderScore < a.spotfinderScore ∨
        (a.spotfinderScore = b.spotfinderScore ∧ b.semanticValue ≤ a.semanticValue)))

instance : DecidableRel fiOppLE := fun a b => by
  unfold fiOppLE; infer_instance

/-- Stages 4 to 6 of the pipeline from the collected source pool onward:
deduplicate and exclude, score pairs, rank and truncate. -/
def backlinkOpportunities (sources : List SourcePage) (ourRefHosts : List String)
    (targets : List String) (fi : String → String → ℚ) (fiThreshold : ℚ)
    (maxCandidatesPerTarget topLimit : Nat) : List BacklinkOpportunity :=
  (List.insertionSort fiOppLE
    (collectOps (uniqueSources sources ourRefHosts) targets fi fiThreshold
      maxCandidatesPerTarget)).take topLimit

/-! ## Automatic target selection (stage 1 of the backlink pipeline) -/

/-- A raw internal page record with the alternative field names probed by
the pipeline. -/
structure InternalPage where
  url : Option String
  link : Option String
  target : Option String
  semanticValue : Option ℚ
  sv : Option ℚ
  pageValue : Option ℚ
  pv : Option ℚ
deriving DecidableEq, Repr

/-- A candidate target page after field extraction. -/
structure TargetCandidate where
  url : String
  sv : ℚ
  pv : ℚ
deriving DecidableEq, Repr

/-- Field extraction and the truthy-url filter over one internal page. -/
def pageCandidate (p : InternalPage) : Option TargetCandidate :=
  match jsNullish p.url (jsNullish p.link p.target) with
  | some u =>
    if u = "" then none
    else some ⟨u, (jsNullish p.semanticValue p.sv).getD 0, (jsNullish p.pageValue p.pv).getD 0⟩
  | none => none

/-- All candidate target pages of the host. -/
def targetCandidates (internalPages : List InternalPage) : List TargetCandidate :=
  internalPages.filterMap pageCandidate

/-- A raw keyword row of the host as consumed by the backlink pipeline,
with its own field fallback chains (nullish, not short-circuit or). -/
structure FiKwRow where
  keywords : Option String
  keyword : Option String
  text : Option String
  q : Option String
  rank : Option Nat
  position : Option Nat
  pos : Option Nat
  url : Option String
  page : Option String
deriving DecidableEq, Repr

/-- The keyword of a row; none models the row being dropped (falsy kw). -/
def fiRowKeyword (r : FiKwRow) : Option String :=
  match jsNullish r.keywords (jsNullish r.keyword (jsNullish r.text r.q)) with
  | some s => if s = "" then none else some s
  | none => none

/-- The rank of a row; none models Infinity (no rank field present). -/
def fiRowRank (r : FiKwRow) : Option Nat := jsNullish r.rank (jsNullish r.position r.pos)

/-- The url of a row; none models a falsy url (absent or empty). -/
def fiRowUrl (r : FiKwRow) : Option String :=
  match jsNullish r.url r.page with
  | some s => if s = "" then none else some s
  | none => none

/-- The URL to best-known-rank map: only rows with a keyword, a truthy url
and a finite rank strictly improving on the previous best are recorded. -/
def bestRankByUrl (rows : List FiKwRow) : List (String × Nat) :=
  rows.foldl
    (fun m r =>
      match fiRowKeyword r with
      | none => m
      | some _ =>
        match fiRowUrl r with
        | none => m
        | some u =>
          match fiRowRank r with
          | none => m
          | some rk =>
            match assocGet m u with
            | none => assocSet m u rk
            | some prev => if rk < prev then assocSet m u rk else m)
    []

/-- A candidate passes the rank filter when its best known rank is absent
or at least 5. -/
def rankOk (m : List (String × Nat)) (p : TargetCandidate) : Bool :=
  match assocGet m p.url with
  | some br => decide (5 ≤ br)
  | none => true

/-- Candidates surviving the rank filter. -/
def rankFiltered (internalPages : List InternalPage) (baseKw : List FiKwRow) :
    List TargetCandidate :=
  (targetCandidates internalPages).filter (rankOk (bestRankByUrl baseKw))

/-- Main sort of stage 1: descending semantic value then descending page
value. -/
def candLE (a b : TargetCandidate) : Prop :=
  b.sv < a.sv ∨ (a.sv = b.sv ∧ b.pv ≤ a.pv)

instance : DecidableRel candLE := fun a b => by
  unfold candLE; infer_instance

instance : IsTotal TargetCandidate candLE := by
  constructor
  intro a b
  unfold candLE
  rcases lt_trichotomy a.sv b.sv with h | h | h
  · exact Or.inr (Or.inl h)
  · rcases le_total b.pv a.pv with h2 | h2
    · exact Or.inl (Or.inr ⟨h, h2⟩)
    · exact Or.inr (Or.inr ⟨h.symm, h2⟩)
  · exact Or.inl (Or.inl h)

instance : IsTrans TargetCandidate candLE := by
  constructor
  intro a b c hab hbc
  unfold candLE at *
  rcases hab with h | ⟨he, h⟩ <;> rcases hbc with h2 | ⟨he2, h2⟩
  · exact Or.inl (lt_trans h2 h)
  · exact Or.inl (he2 ▸ h)
  · exact Or.inl (he ▸ h2)
  · exact Or.inr ⟨he.trans he2, le_trans h2 h⟩

/-- Fallback sort when the rank filter removes everything: descending
semantic value only. -/
def candSvLE (a b : TargetCandidate) : Prop := b.sv ≤ a.sv

instance : DecidableRel candSvLE := fun a b => by
  unfold candSvLE; infer_instance

instance : IsTotal TargetCandidate candSvLE := ⟨fun a b => le_total b.sv a.sv⟩

instance : IsTrans TargetCandidate candSvLE :=
  ⟨fun _ _ _ hab hbc => le_trans hbc hab⟩

/-- Stage 1 of the pipeline: explicit targets pass through; otherwise pages
without a keyword rank below 5 are preferred, sorted by semantic then page
value, deduplicated and truncated to maxTargets; if that filter leaves
nothing, the unfiltered candidates sorted by semantic value are used. -/
def selectTargets (initialTargets : List String) (internalPages : List InternalPage)
    (baseKw : List FiKwRow) (maxTargets : Nat) : List String :=
  if initialTargets ≠ [] then initialTargets
  else
    let candidates := targetCandidates internalPages
    let filtered := rankFiltered internalPages baseKw
    let targets1 := (dedupFirst ((List.insertionSort candLE filtered).map (·.url))).take maxTargets
    if targets1 = [] ∧ candidates ≠ [] then
      (dedupFirst ((List.insertionSort candSvLE candidates).map (·.url))).take maxTargets
    else targets1

/-! ## Concurrency-bounded executor (pLimit) -/

/-- Events of the limiter transition system.  submit is a call of the
returned run function; complete is the finally block of one admitted unit
(decrement and release of the head waiter); resume is the scheduled
continuation of a released waiter performing its increment and starting
its work.  resume is a separate event because resolving the queued promise
only schedules the waiter: code from other tasks can run in between. -/
inductive LEvent where
  | submit (i : Nat)
  | complete (i : Nat)
  | resume
deriving DecidableEq, Repr

/-- State of the limiter: the running units (the active counter of the code
equals its length), the FIFO wait queue, the released waiters not yet
resumed, the completed units, and ghost logs of submissions, enqueues and
releases used to state the FIFO property. -/
structure LimiterState where
  running : List Nat
  queue : List Nat
  pending : List Nat
  done : List Nat
  submitted : List Nat
  queuedOrder : List Nat
  released : List Nat
deriving DecidableEq, Repr

/-- Initial limiter state. -/
def initLimiter : LimiterState := ⟨[], [], [], [], [], [], []⟩

/-- Identifiers already in the system, to keep unit ids fresh. -/
def seenIds (s : LimiterState) : List Nat := s.running ++ s.queue ++ s.pending ++ s.done

/-- One transition of the limiter, mirroring pLimit: a submitted unit runs
at once when the active count is below the bound and queues otherwise; a
completing unit leaves the running set and moves the head waiter, if any,
to the pending set; a pending waiter resumes by entering the running set
without rechecking the bound, exactly as the code increments after its
await returns. -/
def limiterStep (C : Nat) (s : LimiterState) : LEvent → Option LimiterState
  | LEvent.submit i =>
    if i ∈ seenIds s then none
    else if s.running.length < C then
      some { s with running := s.running ++ [i], submitted := s.submitted ++ [i] }
    else
      some { s with queue := s.queue ++ [i], submitted := s.submitted ++ [i],
                    queuedOrder := s.queuedOrder ++ [i] }
  | LEvent.complete i =>
    if i ∈ s.running then
      match s.queue with
      | [] => some { s with running := s.running.erase i, done := s.done ++ [i] }
      | j :: rest =>
        some { s with running := s.running.erase i, done := s.done ++ [i],
                      queue := rest, pending := s.pending ++ [j],
                      released := s.released ++ [j] }
    else none
  | LEvent.resume =>
    match s.pending with
    | [] => none
    | j :: rest => some { s with pending := rest, running := s.running ++ [j] }

/-- Run a trace of events from a state; none when an event is not enabled. -/
def execFrom (C : Nat) (s : LimiterState) : List LEvent → Option LimiterState
  | [] => some s
  | e :: t =>
    match limiterStep C s e with
    | some s' => execFrom C s' t
    | none => none

/-- A trace is guarded when every submit happens while no released waiter
is still awaiting its resumption. -/
def guardedFrom (C : Nat) (s : LimiterState) : List LEvent → Bool
  | [] => true
  | e :: t =>
    (match e with
     | LEvent.submit _ => s.pending.isEmpty
     | _ => true) &&
    (match limiterStep C s e with
     | some s' => guardedFrom C s' t
     | none => true)

/-- The trace that over-admits with bound 1: unit 0 runs, unit 1 queues;
unit 0 completes and releases unit 1; before unit 1 resumes, unit 2 is
submitted and admitted; unit 1 then resumes, and two units run at once. -/
def cexTrace : List LEvent :=
  [LEvent.submit 0, LEvent.submit 1, LEvent.complete 0, LEvent.submit 2, LEvent.resume]

/-- A guarded trace with bound 2: three submissions happen before any
completion, so every submit sees an empty pending set. -/
def wtTrace : List LEvent :=
  [LEvent.submit 0, LEvent.submit 1, LEvent.submit 2,
   LEvent.complete 0, LEvent.resume, LEvent.complete 1, LEvent.complete 2]

/-! ## Theorems -/

/-- Claim C8: the relevance scorer returns commonRatio commonCount over
length for a non-empty competitor list and 0 for an empty one, the weighted
relevance score, and the admission decision commonCount at least 10 and
score above 50; on the worked example with 12 common keywords out of 100
and similarity 80 the score is 52.8 and the competitor is relevant. -/
theorem calculateCompetitorRelevance_spec :
    (∀ (base comp : List String) (sim : ℚ), comp ≠ [] →
        (calculateCompetitorRelevance base comp sim).commonRatio =
          ((calculateCompetitorRelevance base comp sim).commonCount : ℚ) / (comp.length : ℚ))
  ∧ (∀ (base : List String) (sim : ℚ), (calculateCompetitorRelevance base [] sim).commonRatio = 0)
  ∧ (∀ (base comp : List String) (sim : ℚ),
        (calculateCompetitorRelevance base comp sim).relevanceScore =
          sim * (6/10) + (calculateCompetitorRelevance base comp sim).commonRatio * 100 * (4/10))
  ∧ (∀ (base comp : List String) (sim : ℚ),
        ((calculateCompetitorRelevance base comp sim).isRelevant = true ↔
          10 ≤ (calculateCompetitorRelevance base comp sim).commonCount ∧
          50 < (calculateCompetitorRelevance base comp sim).relevanceScore))
  ∧ (calculateCompetitorRelevance kwBase12 kwComp100 80).commonCount = 12
  ∧ kwComp100.length = 100
  ∧ (calculateCompetitorRelevance kwBase12 kwComp100 80).relevanceScore = 528/10
  ∧ (calculateCompetitorRelevance kwBase12 kwComp100 80).isRelevant = true := by
  refine ⟨?_, ?_, ?_, ?_, by decide, by decide, ?_, ?_⟩
  · intro base comp sim h
    have hlen : 0 < comp.length := List.length_pos.mpr h
    simp [calculateCompetitorRelevance, hlen]
  · intro base sim
    simp [calculateCompetitorRelevance]
  · intro base comp sim
    simp [calculateCompetitorRelevance]
  · intro base comp sim
    simp [calculateCompetitorRelevance]
  · have hc : (List.filter (fun kw => decide (kw ∈ kwBase12)) kwComp100).length = 12 := by decide
    have hl : kwComp100.length = 100 := by decide
    simp [calculateCompetitorRelevance, hc, hl]
    norm_num
  · have hc : (List.filter (fun kw => decide (kw ∈ kwBase12)) kwComp100).length = 12 := by decide
    have hl : kwComp100.length = 100 := by decide
    simp [calculateCompetitorRelevance, hc, hl]
    norm_num

/-- Witness for C8: the commonRatio formula applied at the concrete
non-empty competitor list of the worked example. -/
theorem calculateCompetitorRelevance_spec_witness :
    (calculateCompetitorRelevance kwBase12 kwComp100 80).commonRatio =
      ((calculateCompetitorRelevance kwBase12 kwComp100 80).commonCount : ℚ) /
        (kwComp100.length : ℚ) :=
  calculateCompetitorRelevance_spec.1 kwBase12 kwComp100 80 (by decide)

/-- Claim C3: with threshold 87 a normalized bucket is problematic exactly
when its range end is at least 87, so 86.9 is never problematic and 87.0
always is; severity is blocker from 95, critical from 92, high from the
threshold and info below it. -/
theorem crossesThreshold_spec :
    (∀ b : Bucket, crossesThreshold 87 b = true ↔ 87 ≤ b.percent_to)
  ∧ (∀ b : Bucket, b.percent_to = 869/10 → crossesThreshold 87 b = false)
  ∧ (∀ b : Bucket, b.percent_to = 87 → crossesThreshold 87 b = true)
  ∧ (∀ b : Bucket, severityOf 87 b = Severity.blocker ↔ 95 ≤ b.percent_to)
  ∧ (∀ b : Bucket, severityOf 87 b = Severity.critical ↔ 92 ≤ b.percent_to ∧ b.percent_to < 95)
  ∧ (∀ b : Bucket, severityOf 87 b = Severity.high ↔ 87 ≤ b.percent_to ∧ b.percent_to < 92)
  ∧ (∀ b : Bucket, severityOf 87 b = Severity.info ↔ b.percent_to < 87) := by
  refine ⟨?_, ?_, ?_, ?_, ?_, ?_, ?_⟩
  · intro b; simp [crossesThreshold]
  · intro b h; simp only [crossesThreshold, h]; norm_num
  · intro b h; simp [crossesThreshold, h]
  · intro b
    unfold severityOf
    split_ifs with h1 h2 h3 <;> simp_all <;> try constructor
    all_goals first
      | linarith
      | (intro h; linarith)
  · intro b
    unfold severityOf
    split_ifs with h1 h2 h3 <;> simp_all <;> try constructor
    all_goals first
      | linarith
      | (intro h; linarith)
  · intro b
    unfold severityOf
    split_ifs with h1 h2 h3 <;> simp_all <;> try constructor
    all_goals first
      | linarith
      | (intro h; linarith)
  · intro b
    unfold severityOf
    split_ifs with h1 h2 h3 <;> simp_all <;> try constructor
    all_goals first
      | linarith
      | (intro h; linarith)

/-- Witness for C3: the never and always statements applied to concrete
buckets with range end 86.9 and 87. -/
theorem crossesThreshold_spec_witness :
    crossesThreshold 87 ⟨0, 869/10, 0⟩ = false ∧ crossesThreshold 87 ⟨0, 87, 0⟩ = true :=
  ⟨crossesThreshold_spec.2.1 ⟨0, 869/10, 0⟩ rfl, crossesThreshold_spec.2.2.1 ⟨0, 87, 0⟩ rfl⟩

/-- Rounding to two decimals is the identity on quotients of an integer by
one hundred. -/
theorem round2_intCast_div (m : ℤ) : round2 ((m : ℚ) / 100) = (m : ℚ) / 100 := by
  unfold round2
  rw [div_mul_cancel₀ (m : ℚ) (by norm_num : (100 : ℚ) ≠ 0)]
  rw [Int.floor_int_add m (1/2 : ℚ)]
  norm_num

/-- Rounding to two decimals keeps a value of the range 0 to 100 in that
range. -/
theorem round2_mem_range {y : ℚ} (h0 : 0 ≤ y) (h1 : y ≤ 100) :
    0 ≤ round2 y ∧ round2 y ≤ 100 := by
  unfold round2
  have hm0 : (0 : ℤ) ≤ ⌊y * 100 + 1/2⌋ := Int.le_floor.mpr (by push_cast; linarith)
  have hm1 : ⌊y * 100 + 1/2⌋ ≤ 10000 := by
    have := Int.floor_lt.mpr (show y * 100 + 1/2 < ((10001 : ℤ) : ℚ) by push_cast; linarith)
    omega
  constructor
  · positivity
  · rw [div_le_iff₀ (by norm_num : (0:ℚ) < 100)]
    have hq : ((⌊y * 100 + 1/2⌋ : ℤ) : ℚ) ≤ ((10000 : ℤ) : ℚ) := by exact_mod_cast hm1
    calc ((⌊y * 100 + 1/2⌋ : ℤ) : ℚ) ≤ ((10000 : ℤ) : ℚ) := hq
      _ ≤ 100 * 100 := by norm_num

/-- Claim C4 counterexample: the normalizer is not idempotent.  The raw
value 0.01 normalizes to 1, but normalizing 1 rescales it again to 100, so
applying normPct twice to 0.01 differs from applying it once. -/
theorem normPct_not_idempotent :
    normPct (some (1/100)) = some 1 ∧ normPct (normPct (some (1/100))) = some 100 ∧
    normPct (normPct (some (1/100))) ≠ normPct (some (1/100)) := by
  have h1 : normPct (some (1/100)) = some 1 := by norm_num [normPct, round2]
  have h2 : normPct (normPct (some (1/100))) = some 100 := by norm_num [normPct, round2]
  refine ⟨h1, h2, fun hc => ?_⟩
  rw [h2, h1] at hc
  exact absurd (Option.some.inj hc) (by norm_num)

/-- Claim C4 (amended): whenever normPct yields a number the number lies in
the range 0 to 100, and normPct is idempotent at inputs whose result is 0
or exceeds 1; results in the half-open interval from 0 exclusive to 1
inclusive are rescaled again by a second application. -/
theorem normPct_spec (v : Option ℚ) (q : ℚ) (h : normPct v = some q) :
    (0 ≤ q ∧ q ≤ 100) ∧ ((q = 0 ∨ 1 < q) → normPct (normPct v) = normPct v) := by
  cases v with
  | none => simp [normPct] at h
  | some x =>
    have h' := h
    simp only [normPct, Option.some.injEq] at h'
    obtain ⟨y, hy0, hy1, hyq⟩ : ∃ y : ℚ, 0 ≤ y ∧ y ≤ 100 ∧ round2 y = q := by
      refine ⟨_, ?_, ?_, h'⟩ <;> split_ifs <;> linarith
    have hrange : 0 ≤ q ∧ q ≤ 100 := hyq ▸ round2_mem_range hy0 hy1
    refine ⟨hrange, ?_⟩
    have hrep : ∃ m : ℤ, q = (m : ℚ) / 100 := ⟨⌊y * 100 + 1/2⌋, by rw [← hyq]; rfl⟩
    intro hcase
    have hfix : normPct (some q) = some q := by
      rcases hcase with h0 | hgt
      · subst h0
        norm_num [normPct, round2]
      · simp only [normPct, Option.some.injEq]
        rw [if_neg (not_le.mpr hgt), if_neg (by linarith : ¬ q < 0),
            if_neg (not_lt.mpr hrange.2)]
        obtain ⟨m, rfl⟩ := hrep
        exact round2_intCast_div m
    rw [h, hfix]

/-- Witness for C4: the amended statement applied at the raw value 50,
whose normalization is 50 itself. -/
theorem normPct_spec_witness :
    ((0:ℚ) ≤ 50 ∧ (50:ℚ) ≤ 100) ∧
      (((50:ℚ) = 0 ∨ (1:ℚ) < 50) → normPct (normPct (some 50)) = normPct (some 50)) :=
  normPct_spec (some 50) 50 (by norm_num [normPct, round2])

/-- Membership characterization of the unsorted emitted list. -/
theorem mem_emitOpportunities {m : List (String × Nat)} {host : String} {comp : List KwRow}
    {o : Opportunity} :
    o ∈ emitOpportunities m host comp ↔
      ∃ r ∈ comp, rowKeyword r ≠ "" ∧ rowPosition r ≤ 10 ∧
        10 < ourPositionOf m (rowKeyword r) ∧
        o = mkOpportunity host (rowKeyword r) (rowPosition r)
              (ourPositionOf m (rowKeyword r)) (rowVolume r) := by
  unfold emitOpportunities
  rw [List.mem_filterMap]
  constructor
  · rintro ⟨r, hr, hf⟩
    by_cases hk : rowKeyword r = ""
    · simp [hk] at hf
    · by_cases hc : rowPosition r ≤ 10 ∧ 10 < ourPositionOf m (rowKeyword r)
      · simp [hk, hc.1, hc.2] at hf
        exact ⟨r, hr, hk, hc.1, hc.2, hf.symm⟩
      · simp [hk, hc] at hf
  · rintro ⟨r, hr, hk, h1, h2, rfl⟩
    refine ⟨r, hr, ?_⟩
    simp [hk, h1, h2]

/-- Membership characterization of the final sorted opportunity list: the
sort is a permutation, so membership coincides with the emitted list. -/
theorem mem_findKeywordOpportunities {base comp : List KwRow} {host : String}
    {o : Opportunity} :
    o ∈ findKeywordOpportunities base comp host ↔
      ∃ r ∈ comp, rowKeyword r ≠ "" ∧ rowPosition r ≤ 10 ∧
        10 < ourPositionOf (baseKwMap base) (rowKeyword r) ∧
        o = mkOpportunity host (rowKeyword r) (rowPosition r)
              (ourPositionOf (baseKwMap base) (rowKeyword r)) (rowVolume r) := by
  unfold findKeywordOpportunities
  rw [List.mem_insertionSort]
  exact mem_emitOpportunities

/-- Claim C5 (amended): a record is emitted for a competitor row exactly
when the row has a nonempty normalized keyword, its competitor position is
at most 10 and our position (default 999 when the base map lacks the
keyword) exceeds 10; priorities are High at competitor position up to 3,
Medium up to 5, Low otherwise; the output is sorted ascending by competitor
position with ties broken by descending volume.  The nonempty-keyword
condition is the amendment: rows without a keyword are skipped. -/
theorem findKeywordOpportunities_spec (base comp : List KwRow) (host : String) :
    (∀ o : Opportunity, o ∈ findKeywordOpportunities base comp host ↔
      ∃ r ∈ comp, rowKeyword r ≠ "" ∧ rowPosition r ≤ 10 ∧
        10 < ourPositionOf (baseKwMap base) (rowKeyword r) ∧
        o = mkOpportunity host (rowKeyword r) (rowPosition r)
              (ourPositionOf (baseKwMap base) (rowKeyword r)) (rowVolume r))
  ∧ (∀ o ∈ findKeywordOpportunities base comp host,
      o.priority = if o.competitorPosition ≤ 3 then "High"
        else if o.competitorPosition ≤ 5 then "Medium" else "Low")
  ∧ List.Sorted oppLE (findKeywordOpportunities base comp host) := by
  refine ⟨fun o => mem_findKeywordOpportunities, ?_, ?_⟩
  · intro o ho
    obtain ⟨r, hr, hk, h1, h2, rfl⟩ := mem_findKeywordOpportunities.mp ho
    simp [mkOpportunity]
  · unfold findKeywordOpportunities
    exact List.sorted_insertionSort oppLE _

/-- Claim C5 counterexample: a competitor row with no keyword field has a
position of 3 (at most 10) and a default our-position of 999 (above 10),
yet no record is emitted for it, refuting the unconditional iff. -/
theorem findKeywordOpportunities_skips_empty_keyword :
    rowPosition ⟨none, none, some 3, none, some 500, none⟩ ≤ 10 ∧
    10 < ourPositionOf (baseKwMap []) (rowKeyword ⟨none, none, some 3, none, some 500, none⟩) ∧
    findKeywordOpportunities [] [⟨none, none, some 3, none, some 500, none⟩] "c" = [] := by
  decide

/-- Witness for C5: the priority clause applied to the record emitted for
the gadgets example of the spec. -/
theorem findKeywordOpportunities_spec_witness :
    (mkOpportunity "c" "gadgets" 3 999 500).priority =
      (if (mkOpportunity "c" "gadgets" 3 999 500).competitorPosition ≤ 3 then "High"
       else if (mkOpportunity "c" "gadgets" 3 999 500).competitorPosition ≤ 5 then "Medium"
       else "Low") :=
  (findKeywordOpportunities_spec [] [⟨some "gadgets", none, some 3, none, some 500, none⟩]
    "c").2.1 (mkOpportunity "c" "gadgets" 3 999 500) (by decide)

/-- Claim C9 counterexample: the record emitted for an unranked keyword
carries the display string in its ourPosition field, not the numeric
sentinel 999 the claim asserts. -/
theorem ourPosition_field_is_string :
    findKeywordOpportunities [] [⟨some "gadgets", none, some 3, none, some 500, none⟩] "c"
      = [mkOpportunity "c" "gadgets" 3 999 500] ∧
    (mkOpportunity "c" "gadgets" 3 999 500).ourPosition = Sum.inr "Non classé" ∧
    (mkOpportunity "c" "gadgets" 3 999 500).ourPosition ≠ Sum.inl 999 := by
  decide

/-- Claim C9 (amended): every emitted record either carries a numeric
ourPosition that is at least 1, above 10 and distinct from 999, with gap
equal to that number minus the competitor position, or carries the string
replacing the 999 sentinel, with gap equal to 999 minus the competitor
position. -/
theorem ourPosition_encoding (base comp : List KwRow) (host : String) (o : Opportunity)
    (h : o ∈ findKeywordOpportunities base comp host) :
    (∃ p : Nat, o.ourPosition = Sum.inl p ∧ 1 ≤ p ∧ 10 < p ∧ p ≠ 999 ∧
        o.gap = (p : Int) - (o.competitorPosition : Int))
  ∨ (o.ourPosition = Sum.inr "Non classé" ∧
        o.gap = (999 : Int) - (o.competitorPosition : Int)) := by
  obtain ⟨r, hr, hk, h1, h2, rfl⟩ := mem_findKeywordOpportunities.mp h
  by_cases hp : ourPositionOf (baseKwMap base) (rowKeyword r) = 999
  · right
    constructor
    · simp [mkOpportunity, hp]
    · simp [mkOpportunity, hp]
  · left
    exact ⟨ourPositionOf (baseKwMap base) (rowKeyword r),
      by simp [mkOpportunity, hp], by omega, h2, hp, by simp [mkOpportunity]⟩

/-- Witness for C9: the amended statement applied to a record whose base
keyword is ranked 15, hence a numeric ourPosition. -/
theorem ourPosition_encoding_witness :
    (∃ p : Nat, (mkOpportunity "c" "w" 2 15 7).ourPosition = Sum.inl p ∧ 1 ≤ p ∧ 10 < p ∧
        p ≠ 999 ∧ (mkOpportunity "c" "w" 2 15 7).gap =
          (p : Int) - ((mkOpportunity "c" "w" 2 15 7).competitorPosition : Int))
  ∨ ((mkOpportunity "c" "w" 2 15 7).ourPosition = Sum.inr "Non classé" ∧
        (mkOpportunity "c" "w" 2 15 7).gap =
          (999 : Int) - ((mkOpportunity "c" "w" 2 15 7).competitorPosition : Int)) :=
  ourPosition_encoding [⟨some "w", none, some 15, none, none, none⟩]
    [⟨some "w", none, some 2, none, some 7, none⟩] "c"
    (mkOpportunity "c" "w" 2 15 7) (by decide)

/-- Claim C10: every emitted record has a strictly positive gap, because a
record is emitted only when the numeric our-position exceeds 10 while the
competitor position is at most 10. -/
theorem gap_positive (base comp : List KwRow) (host : String) (o : Opportunity)
    (h : o ∈ findKeywordOpportunities base comp host) : 0 < o.gap := by
  obtain ⟨r, hr, hk, h1, h2, rfl⟩ := mem_findKeywordOpportunities.mp h
  simp [mkOpportunity]
  omega

/-- Witness for C10: the gap of the record emitted for the gadgets example
is positive. -/
theorem gap_positive_witness : 0 < (mkOpportunity "c" "gadgets" 3 999 500).gap :=
  gap_positive [] [⟨some "gadgets", none, some 3, none, some 500, none⟩] "c"
    (mkOpportunity "c" "gadgets" 3 999 500) (by decide)

/-- Claim C1: for a cacheable call (POST with useCache), a fresh cache
entry under the same key is returned unchanged with no network request and
no state change; and the cache is only ever written with the returned
envelope, under the same key, after a successful request of a cacheable
call. -/
theorem makeApiCall_cache_spec (st : ClientState) (endpoint method params : String)
    (useCache : Bool) (net : Option NetResponse) (now : Nat) :
    (∀ (env : Envelope) (t : Nat), useCache = true → method = "POST" →
       cacheLookup st.cache (cacheKey method endpoint params) = some (env, t) →
       now ≤ t + 864000 →
       makeApiCall st endpoint method params useCache net now = (some env, st, false))
  ∧ (∀ (r : Option Envelope) (st' : ClientState) (called : Bool),
       makeApiCall st endpoint method params useCache net now = (r, st', called) →
       st'.cache = st.cache ∨
         (useCache = true ∧ method = "POST" ∧ called = true ∧
          ∃ (resp : NetResponse) (env : Envelope), net = some resp ∧ r = some env ∧
            st'.cache = assocSet st.cache (cacheKey method endpoint params) (env, now))) := by
  constructor
  · intro env t hu hm hl httl
    subst hu
    subst hm
    simp [makeApiCall, cacheGet, hl, httl]
  · intro r st' called hcall
    by_cases hcond : useCache = true ∧ method = "POST"
    · obtain ⟨hu, hm⟩ := hcond
      subst hu
      subst hm
      cases hget : cacheGet st.cache (cacheKey "POST" endpoint params) now with
      | some cached =>
        simp [makeApiCall, hget, Prod.mk.injEq] at hcall
        left
        rw [← hcall.2.1]
      | none =>
        cases net with
        | some resp =>
          simp [makeApiCall, hget, Prod.mk.injEq] at hcall
          right
          refine ⟨rfl, rfl, hcall.2.2, resp,
            formatResponse (jsNullish resp.rateRemaining st.rateLimitRemaining)
              resp.payload endpoint now, rfl, hcall.1.symm, ?_⟩
          rw [← hcall.2.1]
        | none =>
          simp [makeApiCall, hget, Prod.mk.injEq] at hcall
          left
          rw [← hcall.2.1]
    · cases net with
      | some resp =>
        simp [makeApiCall, hcond, Prod.mk.injEq] at hcall
        left
        rw [← hcall.2.1]
      | none =>
        simp [makeApiCall, hcond, Prod.mk.injEq] at hcall
        left
        rw [← hcall.2.1]

/-- Witness for C1: a concrete cached POST call served at time 10 from an
entry inserted at time 5, with no transport outcome available at all, so
no network request can have been issued. -/
theorem makeApiCall_cache_spec_witness :
    makeApiCall ⟨[(cacheKey "POST" "/e" "p", ⟨"/e", 0, none, "d"⟩, 5)], none⟩ "/e" "POST" "p"
      true none 10 =
    (some ⟨"/e", 0, none, "d"⟩,
      ⟨[(cacheKey "POST" "/e" "p", ⟨"/e", 0, none, "d"⟩, 5)], none⟩, false) :=
  (makeApiCall_cache_spec ⟨[(cacheKey "POST" "/e" "p", ⟨"/e", 0, none, "d"⟩, 5)], none⟩
    "/e" "POST" "p" true none 10).1 ⟨"/e", 0, none, "d"⟩ 5 rfl rfl (by decide) (by decide)

/-- Values present after a map insertion come from the old map or are the
inserted value. -/
theorem assocSet_values_subset {β : Type} {m : List (String × β)} {k : String} {v x : β}
    (h : x ∈ (assocSet m k v).map (·.2)) : x ∈ m.map (·.2) ∨ x = v := by
  unfold assocSet at h
  split_ifs at h with hc
  · rw [List.map_map, List.mem_map] at h
    obtain ⟨kv, hkv, hx⟩ := h
    by_cases he : kv.1 = k
    · simp [he] at hx
      exact Or.inr hx.symm
    · simp [he] at hx
      exact Or.inl (List.mem_map.mpr ⟨kv, hkv, hx⟩)
  · rw [List.map_append, List.mem_append] at h
    rcases h with h | h
    · exact Or.inl h
    · simp at h
      exact Or.inr h

/-- Values of the deduplication map built over a source pool come from the
accumulator or the pool. -/
theorem foldl_assocSet_values_subset {l : List SourcePage} :
    ∀ {acc : List (String × SourcePage)} {x : SourcePage},
      x ∈ ((l.foldl (fun m p => assocSet m p.url p) acc).map (·.2)) →
      x ∈ acc.map (·.2) ∨ x ∈ l := by
  induction l with
  | nil => intro acc x h; exact Or.inl h
  | cons a l ih =>
    intro acc x h
    rw [List.foldl_cons] at h
    rcases ih h with h' | h'
    · rcases assocSet_values_subset h' with h'' | h''
      · exact Or.inl h''
      · exact Or.inr (h'' ▸ List.mem_cons_self a l)
    · exact Or.inr (List.mem_cons_of_mem a h')

/-- Every element of uniqueSources originates in the pool, has a truthy url
and host, and its host is outside the exclusion set. -/
theorem mem_uniqueSources {sources : List SourcePage} {refs : List String} {p : SourcePage}
    (h : p ∈ uniqueSources sources refs) :
    p ∈ sources ∧ p.url ≠ "" ∧ p.host ≠ "" ∧ p.host ∉ refs := by
  unfold uniqueSources at h
  have hmem := List.mem_of_mem_filter h
  have hcond := List.of_mem_filter h
  simp only [decide_eq_true_eq] at hcond
  rcases foldl_assocSet_values_subset hmem with h' | h'
  · simp at h'
  · exact ⟨h', hcond⟩

/-- Claim C6: a source page whose host belongs to the exclusion set of
hosts already referring to the analyzed host never appears in the final
opportunity list, whatever induced strength the oracle assigns to it. -/
theorem excluded_host_not_in_opportunities (sources : List SourcePage)
    (ourRefHosts : List String) (targets : List String) (fi : String → String → ℚ)
    (fiThreshold : ℚ) (maxCandidatesPerTarget topLimit : Nat) (o : BacklinkOpportunity)
    (h : o ∈ backlinkOpportunities sources ourRefHosts targets fi fiThreshold
          maxCandidatesPerTarget topLimit) :
    o.prospectHost ∉ ourRefHosts := by
  unfold backlinkOpportunities at h
  have h1 := List.take_subset _ _ h
  rw [List.mem_insertionSort] at h1
  unfold collectOps at h1
  rw [List.mem_flatten] at h1
  obtain ⟨l, hl, hol⟩ := h1
  rw [List.mem_map] at hl
  obtain ⟨t, ht, rfl⟩ := hl
  rw [List.mem_filterMap] at hol
  obtain ⟨p, hp, hpo⟩ := hol
  have hpu : p ∈ uniqueSources sources ourRefHosts := by
    have := List.take_subset _ _ hp
    rwa [List.mem_insertionSort] at this
  have hfilter := mem_uniqueSources hpu
  by_cases hth : fiThreshold ≤ fi p.url t
  · simp [hth] at hpo
    rw [← hpo]
    exact hfilter.2.2.2
  · simp [hth] at hpo

/-- Witness for C6: a concrete pipeline run whose single retained
opportunity comes from a host outside the exclusion set. -/
theorem excluded_host_not_in_opportunities_witness :
    (mkBacklinkOpp ⟨"http://a/x", "a.com", 5, 5, 5, 3⟩ "http://me/t" 50).prospectHost ∉
      ["b.com"] :=
  excluded_host_not_in_opportunities [⟨"http://a/x", "a.com", 5, 5, 5, 3⟩] ["b.com"]
    ["http://me/t"] (fun _ _ => 50) 10 80 25
    (mkBacklinkOpp ⟨"http://a/x", "a.com", 5, 5, 5, 3⟩ "http://me/t" 50) (by decide)

/-- Elements surviving the first-occurrence deduplication fold come from
the accumulator or the input. -/
theorem foldl_dedupFirst_mem {l : List String} :
    ∀ {acc : List String} {x : String},
      x ∈ l.foldl (fun acc a => if a ∈ acc then acc else acc ++ [a]) acc →
      x ∈ acc ∨ x ∈ l := by
  induction l with
  | nil => intro acc x h; exact Or.inl h
  | cons a l ih =>
    intro acc x h
    rw [List.foldl_cons] at h
    rcases ih h with h' | h'
    · split_ifs at h' with hc
      · exact Or.inl h'
      · rw [List.mem_append] at h'
        rcases h' with h' | h'
        · exact Or.inl h'
        · simp at h'
          exact Or.inr (h' ▸ List.mem_cons_self a l)
    · exact Or.inr (List.mem_cons_of_mem a h')

/-- Deduplication only keeps elements of the input list. -/
theorem mem_dedupFirst {l : List String} {x : String} (h : x ∈ dedupFirst l) : x ∈ l := by
  unfold dedupFirst at h
  rcases foldl_dedupFirst_mem h with h' | h'
  · simp at h'
  · exact h'

/-- The deduplication fold never shrinks a nonempty accumulator to nil. -/
theorem foldl_dedupFirst_ne_nil {l : List String} :
    ∀ {acc : List String}, acc ≠ [] →
      l.foldl (fun acc a => if a ∈ acc then acc else acc ++ [a]) acc ≠ [] := by
  induction l with
  | nil => intro acc h; exact h
  | cons a l ih =>
    intro acc h
    rw [List.foldl_cons]
    apply ih
    split_ifs with hc
    · exact h
    · simp

/-- Deduplicating a nonempty list yields a nonempty list. -/
theorem dedupFirst_ne_nil {l : List String} (h : l ≠ []) : dedupFirst l ≠ [] := by
  cases l with
  | nil => exact absurd rfl h
  | cons a l =>
    unfold dedupFirst
    rw [List.foldl_cons]
    apply foldl_dedupFirst_ne_nil
    simp

/-- Claim C7 (amended): when explicit targets are absent and at least one
candidate page survives the rank filter, the automatic selection equals the
top maxTargets deduplicated urls of the filtered candidates sorted by
semantic value then page value, is bounded by maxTargets, and every
selected target is an internal page whose best known keyword rank is not
below 5.  The amendment excludes the fallback branch taken when the rank
filter eliminates every candidate. -/
theorem selectTargets_spec (internalPages : List InternalPage) (baseKw : List FiKwRow)
    (maxTargets : Nat) (hne : rankFiltered internalPages baseKw ≠ []) :
    selectTargets [] internalPages baseKw maxTargets =
      (dedupFirst ((List.insertionSort candLE (rankFiltered internalPages baseKw)).map
        (·.url))).take maxTargets
  ∧ (selectTargets [] internalPages baseKw maxTargets).length ≤ maxTargets
  ∧ ∀ t ∈ selectTargets [] internalPages baseKw maxTargets,
      (∃ p ∈ targetCandidates internalPages, p.url = t) ∧
      ∀ br, assocGet (bestRankByUrl baseKw) t = some br → 5 ≤ br := by
  have hcand : targetCandidates internalPages ≠ [] := by
    intro hc
    apply hne
    unfold rankFiltered
    rw [hc]
    rfl
  have heq : selectTargets [] internalPages baseKw maxTargets =
      (dedupFirst ((List.insertionSort candLE (rankFiltered internalPages baseKw)).map
        (·.url))).take maxTargets := by
    unfold selectTargets
    rw [if_neg (by simp)]
    cases maxTargets with
    | zero => simp
    | succ k =>
      rw [if_neg]
      intro hcon
      have hsort : List.insertionSort candLE (rankFiltered internalPages baseKw) ≠ [] := by
        intro hs
        apply hne
        have := List.perm_insertionSort candLE (rankFiltered internalPages baseKw)
        rw [hs] at this
        exact List.Perm.eq_nil this.symm
      have hmap : ((List.insertionSort candLE (rankFiltered internalPages baseKw)).map
          (·.url)) ≠ [] := by
        simpa using hsort
      have hded := dedupFirst_ne_nil hmap
      rcases List.exists_cons_of_ne_nil hded with ⟨b, bs, hbs⟩
      rw [hbs] at hcon
      simp at hcon
  refine ⟨heq, ?_, ?_⟩
  · rw [heq]
    exact le_trans (List.length_take_le _ _) (le_refl _)
  · intro t ht
    rw [heq] at ht
    have ht1 := List.take_subset _ _ ht
    have ht2 := mem_dedupFirst ht1
    rw [List.mem_map] at ht2
    obtain ⟨p, hp, hpt⟩ := ht2
    rw [List.mem_insertionSort] at hp
    unfold rankFiltered at hp
    have hpc := List.mem_of_mem_filter hp
    have hpok := List.of_mem_filter hp
    refine ⟨⟨p, hpc, hpt⟩, ?_⟩
    intro br hbr
    unfold rankOk at hpok
    rw [hpt] at hpok
    rw [hbr] at hpok
    simpa using hpok

/-- Claim C7 counterexample: with a single internal page whose best known
keyword rank is 3, the rank filter removes every candidate and the fallback
selects that page anyway, so an auto-selected target can have a best known
rank below 5. -/
theorem selectTargets_fallback_counterexample :
    selectTargets [] [⟨some "u", none, none, some 9, none, some 9, none⟩]
      [⟨some "kw", none, none, none, some 3, none, none, some "u", none⟩] 18 = ["u"] ∧
    assocGet (bestRankByUrl [⟨some "kw", none, none, none, some 3, none, none, some "u", none⟩])
      "u" = some 3 ∧ 3 < 5 := by
  decide

/-- Witness for C7: the amended statement applied to a host with one
internal page and no ranked keywords. -/
theorem selectTargets_spec_witness :
    (selectTargets [] [⟨some "u", none, none, some 9, none, some 9, none⟩] [] 18).length ≤ 18 :=
  (selectTargets_spec [⟨some "u", none, none, some 9, none, some 9, none⟩] [] 18 (by decide)).2.1

/-- One limiter step preserves the structural invariants: the enqueue log
splits into released then still-queued units in order, the enqueue log is a
subsequence of the submission log, a nonempty queue coexists with a running
or pending unit, and every submitted unit is in exactly one of the four
stations. -/
theorem limiterStep_inv (C : Nat) (hC : 1 ≤ C) {s s' : LimiterState} {e : LEvent}
    (hstep : limiterStep C s e = some s')
    (h1 : s.queuedOrder = s.released ++ s.queue)
    (h2 : s.queuedOrder.Sublist s.submitted)
    (h3 : s.queue ≠ [] → s.running ≠ [] ∨ s.pending ≠ [])
    (h4 : ∀ i ∈ s.submitted, i ∈ s.running ∨ i ∈ s.queue ∨ i ∈ s.pending ∨ i ∈ s.done) :
    (s'.queuedOrder = s'.released ++ s'.queue) ∧
    (s'.queuedOrder.Sublist s'.submitted) ∧
    (s'.queue ≠ [] → s'.running ≠ [] ∨ s'.pending ≠ []) ∧
    (∀ i ∈ s'.submitted, i ∈ s'.running ∨ i ∈ s'.queue ∨ i ∈ s'.pending ∨ i ∈ s'.done) := by
  cases e with
  | submit i =>
    simp only [limiterStep] at hstep
    by_cases hseen : i ∈ seenIds s
    · rw [if_pos hseen] at hstep
      exact absurd hstep (by simp)
    · rw [if_neg hseen] at hstep
      by_cases hlt : s.running.length < C
      · rw [if_pos hlt] at hstep
        obtain rfl := Option.some.inj hstep
        refine ⟨h1, h2.trans (List.sublist_append_left _ _), ?_, ?_⟩
        · intro _
          exact Or.inl (by simp)
        · intro j hj
          rw [List.mem_append] at hj
          rcases hj with hj | hj
          · rcases h4 j hj with h | h | h | h
            · exact Or.inl (List.mem_append_left _ h)
            · exact Or.inr (Or.inl h)
            · exact Or.inr (Or.inr (Or.inl h))
            · exact Or.inr (Or.inr (Or.inr h))
          · simp only [List.mem_singleton] at hj
            exact Or.inl (List.mem_append_right _ (by simp [hj]))
      · rw [if_neg hlt] at hstep
        obtain rfl := Option.some.inj hstep
        refine ⟨?_, List.Sublist.append h2 (List.Sublist.refl _), ?_, ?_⟩
        · simp only [h1, List.append_assoc]
        · intro _
          left
          intro hr
          rw [hr] at hlt
          simp only [List.length_nil] at hlt
          omega
        · intro j hj
          rw [List.mem_append] at hj
          rcases hj with hj | hj
          · rcases h4 j hj with h | h | h | h
            · exact Or.inl h
            · exact Or.inr (Or.inl (List.mem_append_left _ h))
            · exact Or.inr (Or.inr (Or.inl h))
            · exact Or.inr (Or.inr (Or.inr h))
          · simp only [List.mem_singleton] at hj
            exact Or.inr (Or.inl (List.mem_append_right _ (by simp [hj])))
  | complete i =>
    simp only [limiterStep] at hstep
    by_cases hrun : i ∈ s.running
    · rw [if_pos hrun] at hstep
      cases hqe : s.queue with
      | nil =>
        simp only [hqe] at hstep
        obtain rfl := Option.some.inj hstep
        refine ⟨by simpa [hqe] using h1, h2, ?_, ?_⟩
        · intro hq
          exact absurd rfl hq
        · intro j hj
          rcases h4 j hj with h | h | h | h
          · by_cases hji : j = i
            · exact Or.inr (Or.inr (Or.inr (List.mem_append_right _ (by simp [hji]))))
            · exact Or.inl ((List.mem_erase_of_ne hji).mpr h)
          · rw [hqe] at h
            simp at h
          · exact Or.inr (Or.inr (Or.inl h))
          · exact Or.inr (Or.inr (Or.inr (List.mem_append_left _ h)))
      | cons k rest =>
        simp only [hqe] at hstep
        obtain rfl := Option.some.inj hstep
        refine ⟨?_, h2, ?_, ?_⟩
        · rw [h1, hqe]
          simp
        · intro _
          right
          simp
        · intro j hj
          rcases h4 j hj with h | h | h | h
          · by_cases hji : j = i
            · exact Or.inr (Or.inr (Or.inr (List.mem_append_right _ (by simp [hji]))))
            · exact Or.inl ((List.mem_erase_of_ne hji).mpr h)
          · rw [hqe] at h
            rcases List.mem_cons.mp h with h | h
            · exact Or.inr (Or.inr (Or.inl (List.mem_append_right _ (by simp [h]))))
            · exact Or.inr (Or.inl h)
          · exact Or.inr (Or.inr (Or.inl (List.mem_append_left _ h)))
          · exact Or.inr (Or.inr (Or.inr (List.mem_append_left _ h)))
    · rw [if_neg hrun] at hstep
      exact absurd hstep (by simp)
  | resume =>
    simp only [limiterStep] at hstep
    cases hpe : s.pending with
    | nil =>
      simp only [hpe] at hstep
      exact absurd hstep (by simp)
    | cons k rest =>
      simp only [hpe] at hstep
      obtain rfl := Option.some.inj hstep
      refine ⟨h1, h2, ?_, ?_⟩
      · intro _
        left
        simp
      · intro j hj
        rcases h4 j hj with h | h | h | h
        · exact Or.inl (List.mem_append_left _ h)
        · exact Or.inr (Or.inl h)
        · rw [hpe] at h
          rcases List.mem_cons.mp h with h | h
          · exact Or.inl (List.mem_append_right _ (by simp [h]))
          · exact Or.inr (Or.inr (Or.inl h))
        · exact Or.inr (Or.inr (Or.inr h))

/-- One limiter step preserves the count bound, provided a submit only
happens while no released waiter is pending resumption. -/
theorem limiterStep_bound (C : Nat) {s s' : LimiterState} {e : LEvent}
    (hstep : limiterStep C s e = some s')
    (hguard : ∀ i, e = LEvent.submit i → s.pending = [])
    (hb : s.running.length + s.pending.length ≤ C) :
    s'.running.length + s'.pending.length ≤ C := by
  cases e with
  | submit i =>
    have hpe : s.pending = [] := hguard i rfl
    simp only [limiterStep] at hstep
    by_cases hseen : i ∈ seenIds s
    · rw [if_pos hseen] at hstep
      exact absurd hstep (by simp)
    · rw [if_neg hseen] at hstep
      by_cases hlt : s.running.length < C
      · rw [if_pos hlt] at hstep
        obtain rfl := Option.some.inj hstep
        simp only [List.length_append, List.length_singleton, hpe, List.length_nil]
        omega
      · rw [if_neg hlt] at hstep
        obtain rfl := Option.some.inj hstep
        exact hb
  | complete i =>
    simp only [limiterStep] at hstep
    by_cases hrun : i ∈ s.running
    · have hlen : 0 < s.running.length := List.length_pos.mpr (by
        intro hr
        rw [hr] at hrun
        simp at hrun)
      have herase : (s.running.erase i).length = s.running.length - 1 :=
        List.length_erase_of_mem hrun
      rw [if_pos hrun] at hstep
      cases hqe : s.queue with
      | nil =>
        simp only [hqe] at hstep
        obtain rfl := Option.some.inj hstep
        simp only [herase]
        omega
      | cons k rest =>
        simp only [hqe] at hstep
        obtain rfl := Option.some.inj hstep
        simp only [herase, List.length_append, List.length_singleton]
        omega
    · rw [if_neg hrun] at hstep
      exact absurd hstep (by simp)
  | resume =>
    simp only [limiterStep] at hstep
    cases hpe : s.pending with
    | nil =>
      simp only [hpe] at hstep
      exact absurd hstep (by simp)
    | cons k rest =>
      simp only [hpe] at hstep
      obtain rfl := Option.some.inj hstep
      simp only [List.length_append, List.length_singleton]
      rw [hpe] at hb
      simp only [List.length_cons] at hb
      omega

/-- The structural invariants hold along any execution. -/
theorem execFrom_inv (C : Nat) (hC : 1 ≤ C) :
    ∀ (t : List LEvent) (s s' : LimiterState),
      execFrom C s t = some s' →
      s.queuedOrder = s.released ++ s.queue →
      s.queuedOrder.Sublist s.submitted →
      (s.queue ≠ [] → s.running ≠ [] ∨ s.pending ≠ []) →
      (∀ i ∈ s.submitted, i ∈ s.running ∨ i ∈ s.queue ∨ i ∈ s.pending ∨ i ∈ s.done) →
      (s'.queuedOrder = s'.released ++ s'.queue) ∧
      (s'.queuedOrder.Sublist s'.submitted) ∧
      (s'.queue ≠ [] → s'.running ≠ [] ∨ s'.pending ≠ []) ∧
      (∀ i ∈ s'.submitted, i ∈ s'.running ∨ i ∈ s'.queue ∨ i ∈ s'.pending ∨ i ∈ s'.done) := by
  intro t
  induction t with
  | nil =>
    intro s s' hexec h1 h2 h3 h4
    obtain rfl := Option.some.inj hexec
    exact ⟨h1, h2, h3, h4⟩
  | cons e t ih =>
    intro s s' hexec h1 h2 h3 h4
    simp only [execFrom] at hexec
    cases hstep : limiterStep C s e with
    | none =>
      rw [hstep] at hexec
      exact absurd hexec (by simp)
    | some s1 =>
      rw [hstep] at hexec
      obtain ⟨g1, g2, g3, g4⟩ := limiterStep_inv C hC hstep h1 h2 h3 h4
      exact ih s1 s' hexec g1 g2 g3 g4

/-- The count bound holds along any guarded execution. -/
theorem execFrom_bound (C : Nat) :
    ∀ (t : List LEvent) (s s' : LimiterState),
      execFrom C s t = some s' → guardedFrom C s t = true →
      s.running.length + s.pending.length ≤ C →
      s'.running.length + s'.pending.length ≤ C := by
  intro t
  induction t with
  | nil =>
    intro s s' hexec _ hb
    obtain rfl := Option.some.inj hexec
    exact hb
  | cons e t ih =>
    intro s s' hexec hg hb
    simp only [execFrom] at hexec
    cases hstep : limiterStep C s e with
    | none =>
      rw [hstep] at hexec
      exact absurd hexec (by simp)
    | some s1 =>
      rw [hstep] at hexec
      simp only [guardedFrom, hstep, Bool.and_eq_true] at hg
      have hguard : ∀ i, e = LEvent.submit i → s.pending = [] := by
        intro i hei
        subst hei
        simpa [List.isEmpty_iff] using hg.1
      exact ih s1 s' hexec hg.2 (limiterStep_bound C hstep hguard hb)

/-- Claim C2 (amended): for any bound of at least 1, along any execution of
the limiter, waiters are released one per completion in FIFO enqueue order
(the enqueue log is exactly released followed by the remaining queue, and a
subsequence of the submission order), every submitted unit is completed
once nothing is running or pending, and, in executions where no unit is
submitted between a slot release and the released waiter resumption, at
most C units run simultaneously.  The guard is the amendment: an unguarded
submission in that window can over-admit. -/
theorem pLimit_spec (C : Nat) (t : List LEvent) (s : LimiterState) (hC : 1 ≤ C)
    (hexec : execFrom C initLimiter t = some s) :
    (guardedFrom C initLimiter t = true → s.running.length ≤ C)
  ∧ s.queuedOrder = s.released ++ s.queue
  ∧ s.queuedOrder.Sublist s.submitted
  ∧ (s.running = [] → s.pending = [] → ∀ i ∈ s.submitted, i ∈ s.done) := by
  have hinv := execFrom_inv C hC t initLimiter s hexec rfl (by simp [initLimiter])
    (by simp [initLimiter]) (by simp [initLimiter])
  refine ⟨?_, hinv.1, hinv.2.1, ?_⟩
  · intro hg
    have hb := execFrom_bound C t initLimiter s hexec hg (by simp [initLimiter])
    omega
  · intro hr hp i hi
    rcases hinv.2.2.2 i hi with h | h | h | h
    · rw [hr] at h
      simp at h
    · have hq : s.queue = [] := by
        by_contra hq
        rcases hinv.2.2.1 hq with h' | h'
        · exact h' hr
        · exact h' hp
      rw [hq] at h
      simp at h
    · rw [hp] at h
      simp at h
    · exact h

/-- Claim C2 counterexample: with bound 1, submitting a unit after a
completion has released a waiter but before the waiter resumes leads to a
reachable state with two units running at once. -/
theorem pLimit_over_admission :
    execFrom 1 initLimiter cexTrace = some ⟨[2, 1], [], [], [0], [0, 1, 2], [1], [1]⟩ ∧
    1 < (LimiterState.running ⟨[2, 1], [], [], [0], [0, 1, 2], [1], [1]⟩).length := by
  exact ⟨by decide, by decide⟩

/-- Witness for C2: the amended statement applied to a guarded concrete
trace with bound 2 where three units are submitted, run and complete. -/
theorem pLimit_spec_witness :
    (([] : List Nat).length ≤ 2) ∧
    (∀ i ∈ ([0, 1, 2] : List Nat), i ∈ ([0, 1, 2] : List Nat)) :=
  ⟨(pLimit_spec 2 wtTrace ⟨[], [], [], [0, 1, 2], [0, 1, 2], [2], [2]⟩ (by decide)
      (by decide)).1 (by decide),
   (pLimit_spec 2 wtTrace ⟨[], [], [], [0, 1, 2], [0, 1, 2], [2], [2]⟩ (by decide)
      (by decide)).2.2.2 rfl rfl⟩
